import Mathlib

/-!
Verification of the `LanceBuffer` copy-on-write byte-buffer core
(`rust/lance-encoding/src/buffer.rs`).

Bytes are modelled as natural numbers (the source stores `u8` values);
a buffer is either `Borrowed` (the source's shared `arrow_buffer::Buffer`)
or `Owned` (the source's `Vec<u8>`).  Fallible operations (Rust panics,
failed assertions, out-of-bounds raw-pointer reads) are modelled with
`Option` / explicit error constructors.
-/

namespace LanceSpec

/-- The copy-on-write byte buffer: a tagged union of a shared (`Borrowed`)
read-only region and an exclusively owned (`Owned`) allocation. -/
inductive LanceBuffer where
  | Borrowed (buffer : List Nat)
  | Owned (buffer : List Nat)
deriving DecidableEq, Repr

/-- The byte content reachable through the buffer, regardless of variant
(the source's `AsRef<[u8]>` implementation). -/
def LanceBuffer.as_ref : LanceBuffer → List Nat
  | .Borrowed buffer => buffer
  | .Owned buffer => buffer

/-- The buffer's length (the source's `LanceBuffer::len`). -/
def LanceBuffer.len (b : LanceBuffer) : Nat :=
  b.as_ref.length

/-- The source's `PartialEq for LanceBuffer`: four arms comparing byte
content; the mixed arms compare via `as_slice`. -/
def LanceBuffer.eqBuf : LanceBuffer → LanceBuffer → Bool
  | .Borrowed l0, .Borrowed r0 => l0 == r0
  | .Owned l0, .Owned r0 => l0 == r0
  | .Borrowed l0, .Owned r0 => l0 == r0
  | .Owned l0, .Borrowed r0 => l0 == r0

/-- The source's `LanceBuffer::empty`. -/
def LanceBuffer.empty : LanceBuffer :=
  .Owned []

/-- The source's `LanceBuffer::try_clone`: clones a borrowed buffer,
fails on an owned buffer. -/
def LanceBuffer.try_clone : LanceBuffer → Except String LanceBuffer
  | .Borrowed buffer => .ok (.Borrowed buffer)
  | .Owned _ => .error "try_clone called on an owned buffer"

/-- The source's `LanceBuffer::concat_into_one`: a singleton list is
returned as is; otherwise the bytes are copied into a fresh owned buffer. -/
def LanceBuffer.concat_into_one : List LanceBuffer → LanceBuffer
  | [single] => single
  | buffers => .Owned (List.flatten (buffers.map LanceBuffer.as_ref))

/-- The source's `LanceBuffer::slice_with_length`: asserts
`offset + length <= len` (modelled as `none` on failure, the source
panics), then slices; a borrowed buffer yields a borrowed alias, an
owned buffer yields a fresh owned copy of the range. -/
def LanceBuffer.slice_with_length (b : LanceBuffer) (offset length : Nat) :
    Option LanceBuffer :=
  if offset + length ≤ b.as_ref.length then
    some (match b with
      | .Borrowed buffer => .Borrowed ((buffer.drop offset).take length)
      | .Owned buffer => .Owned ((buffer.drop offset).take length))
  else
    none

/-! ### Zip (`LanceBuffer::zip_into_one`) -/

/-- Result of `zip_into_one`: `ok` is the source's `Ok(buffer)`, `err bits`
is the source's `Err(Error::InvalidInput)` naming the offending
`bits_per_value`, and `oob` marks an out-of-bounds raw-pointer read
(undefined behaviour in the source's unsafe block). -/
inductive ZipResult where
  | ok (buffer : LanceBuffer)
  | err (bits_per_value : Nat)
  | oob
deriving DecidableEq, Repr

/-- The width-validation pass of `zip_into_one`: maps each `bits_per_value`
to `bits_per_value / 8` and short-circuits at the first value not divisible
by 8 (the source's `collect::<Result<Vec<_>>>()?`). -/
def computeBytesPerValue : List Nat → Except Nat (List Nat)
  | [] => .ok []
  | bits :: rest =>
    if bits % 8 = 0 then
      match computeBytesPerValue rest with
      | .ok ws => .ok (bits / 8 :: ws)
      | .error e => .error e
    else
      .error bits

/-- Reading `n` bytes at byte offset `off`, the model of one
`copy_nonoverlapping(*buf, zipped_ptr, bytes_per_value)` call; `none`
when the read would run past the buffer's extent. -/
def readBytes (b : List Nat) (off n : Nat) : Option (List Nat) :=
  if off + n ≤ b.length then some ((b.drop off).take n) else none

/-- One iteration of the source's inner `for` loop: for row `r`, copy each
buffer's `bytes_per_value` bytes at its cursor (which after `r` rows sits
at `r * bytes_per_value`). -/
def zipOneRow : List (List Nat × Nat) → Nat → Option (List Nat)
  | [], _ => some []
  | (b, w) :: rest, r =>
    match readBytes b (r * w) w, zipOneRow rest r with
    | some chunk, some tail => some (chunk ++ tail)
    | _, _ => none

/-- The source's outer `while zipped_ptr < end` loop, unrolled per row:
`cnt` rows remain, the next row index is `r`. -/
def zipRowsFrom (bufs : List (List Nat × Nat)) : Nat → Nat → Option (List Nat)
  | _, 0 => some []
  | r, cnt + 1 =>
    match zipOneRow bufs r, zipRowsFrom bufs (r + 1) cnt with
    | some row, some tail => some (row ++ tail)
    | _, _ => none

/-- The source's `LanceBuffer::zip_into_one`: validate the bit widths,
then interleave `num_values` rows, reading `bits_per_value / 8` bytes per
row from each input in list order into one fresh owned buffer. -/
def LanceBuffer.zip_into_one (buffers : List (LanceBuffer × Nat))
    (num_values : Nat) : ZipResult :=
  match computeBytesPerValue (buffers.map (fun p => p.2)) with
  | .error bits => .err bits
  | .ok widths =>
    match zipRowsFrom ((buffers.map (fun p => p.1.as_ref)).zip widths) 0 num_values with
    | some zipped => .ok (.Owned zipped)
    | none => .oob

/-! ### Bit slicing (`LanceBuffer::bit_slice_le_with_length` and the
`arrow_bit_slice` backport) -/

/-- Bit `i` of a byte run under the bitwise little-endian convention:
bit 0 of byte 0 is the least-significant bit of the first byte. -/
def bitAt (bytes : List Nat) (i : Nat) : Nat :=
  bytes.getD (i / 8) 0 / 2 ^ (i % 8) % 2

/-- Output byte `k` of an unaligned bit slice: bits
`off + 8k .. off + 8k + 7` of the source packed LSB-first, positions at or
beyond `len` zero-padded (the behaviour of arrow's
`bitwise_unary_op_helper` with the identity op). -/
def sliceByte (bytes : List Nat) (off len k : Nat) : Nat :=
  ((List.range 8).map (fun j =>
    (if 8 * k + j < len then bitAt bytes (off + (8 * k + j)) else 0) * 2 ^ j)).sum

/-- The unaligned arm of `arrow_bit_slice`: `ceil(len/8)` output bytes. -/
def bitwiseSliceBytes (bytes : List Nat) (off len : Nat) : List Nat :=
  (List.range ((len + 7) / 8)).map (sliceByte bytes off len)

/-- The source's `arrow_bit_slice` backport: a byte-aligned offset degrades
to the byte slice at `off / 8` of `ceil(len/8)` bytes, otherwise a bitwise
shift-and-copy; `none` models the panic on an out-of-range request. -/
def arrow_bit_slice (bytes : List Nat) (off len : Nat) : Option (List Nat) :=
  if off + len ≤ 8 * bytes.length then
    if off % 8 = 0 then
      some ((bytes.drop (off / 8)).take ((len + 7) / 8))
    else
      some (bitwiseSliceBytes bytes off len)
  else
    none

/-- The source's `LanceBuffer::bit_slice_le_with_length`: transitions the
receiver through `borrow_and_clone` (content unchanged) and wraps the
`arrow_bit_slice` result as a borrowed buffer. -/
def LanceBuffer.bit_slice_le_with_length (b : LanceBuffer) (off len : Nat) :
    Option LanceBuffer :=
  (arrow_bit_slice b.as_ref off len).map LanceBuffer.Borrowed

/-! ### Typed reinterpretation (`reinterpret_vec` / `borrow_to_typed_slice`) -/

/-- Little-endian byte rendering of a value at width `w` bytes (the
platform's native order on the little-endian targets the source supports). -/
def toLEBytes : Nat → Nat → List Nat
  | 0, _ => []
  | w + 1, x => x % 256 :: toLEBytes w (x / 256)

/-- Value of a little-endian byte run. -/
def fromLEBytes : List Nat → Nat
  | [] => 0
  | b :: bs => b + 256 * fromLEBytes bs

/-- The source's `LanceBuffer::reinterpret_vec::<T>`: the vector's backing
memory viewed as bytes, wrapped zero-copy as a borrowed buffer; `w` is
`size_of::<T>()` and values are rendered in native little-endian order. -/
def LanceBuffer.reinterpret_vec (w : Nat) (vec : List Nat) : LanceBuffer :=
  .Borrowed (List.flatten (vec.map (toLEBytes w)))

/-- Decoding a byte run as consecutive `w`-byte little-endian values (both
arms of the source's alignment branch produce exactly these values). -/
def chunkValues (w : Nat) (bs : List Nat) : List Nat :=
  if h : 0 < w ∧ bs ≠ [] then
    fromLEBytes (bs.take w) :: chunkValues w (bs.drop w)
  else
    []
termination_by bs.length
decreasing_by
  cases bs with
  | nil => exact absurd rfl h.2
  | cons x xs =>
    have hw := h.1
    simp only [List.length_drop, List.length_cons]
    omega

/-- The source's `LanceBuffer::borrow_to_typed_slice::<T>`: panics
(modelled as `none`) when the length is not a multiple of
`w = size_of::<T>()`, otherwise yields the buffer's bytes reinterpreted as
`w`-byte native little-endian values. -/
def LanceBuffer.borrow_to_typed_slice (w : Nat) (b : LanceBuffer) :
    Option (List Nat) :=
  if b.as_ref.length % w = 0 then some (chunkValues w b.as_ref) else none

/-! ### Hex rendering (`as_hex` / `as_spaced_hex`) -/

/-- Uppercase hex digit of a value below 16. -/
def hexDigit (n : Nat) : Char :=
  if n < 10 then Char.ofNat (48 + n) else Char.ofNat (55 + n)

/-- The two uppercase hex characters of one byte. -/
def byteToHex (b : Nat) : List Char :=
  [hexDigit (b / 16), hexDigit (b % 16)]

/-- The source's `LanceBuffer::as_hex` (`hex::encode_upper`). -/
def LanceBuffer.as_hex (b : LanceBuffer) : List Char :=
  List.flatten (b.as_ref.map byteToHex)

/-- The source's character loop in `as_spaced_hex`: pushes a space before
character index `i` when `i % chars_per_word == 0 && i != 0`. -/
def spaceLoop (chars_per_word : Nat) : Nat → List Char → List Char
  | _, [] => []
  | i, c :: rest =>
    (if i % chars_per_word = 0 ∧ i ≠ 0 then [' ', c] else [c]) ++
      spaceLoop chars_per_word (i + 1) rest

/-- The source's `LanceBuffer::as_spaced_hex`: computes
`hex.len() / chars_per_word` first, which divides by zero (a Rust panic,
modelled as `none`) whenever `bytes_per_word = 0`. -/
def LanceBuffer.as_spaced_hex (b : LanceBuffer) (bytes_per_word : Nat) :
    Option (List Char) :=
  if bytes_per_word = 0 then none
  else some (spaceLoop (bytes_per_word * 2) 0 b.as_hex)

/-! ### Spec-side definitions (stated from the specification's words, for
refinement comparisons against the source-embedded definitions above) -/

/-- Row `r` of the zipped output as the spec words it: in input-list order,
bytes `[r*w, (r+1)*w)` of each buffer, where `w` is the per-value byte
width paired with the buffer. -/
def zipRowSpec (bufs : List (List Nat × Nat)) (r : Nat) : List Nat :=
  List.flatten (bufs.map (fun p => (p.1.drop (r * p.2)).take p.2))

/-- The zipped output as the spec words it: rows `0 .. n-1` in order. -/
def zipSpec (bufs : List (List Nat × Nat)) (n : Nat) : List Nat :=
  List.flatten ((List.range n).map (zipRowSpec bufs))

/-- The spaced hex rendering as the spec words it: one space inserted
before every character index that is a positive multiple of
`chars_per_word`. -/
def spacedHexSpec (chars_per_word : Nat) (hex : List Char) : List Char :=
  List.flatten ((List.range hex.length).map (fun i =>
    (if 0 < i ∧ chars_per_word ∣ i then [' '] else []) ++ [hex.getD i ' ']))

/-! ### Theorems -/

/-- Claim C6: `concat_into_one` returns a buffer whose bytes are the
inputs' bytes concatenated in list order with length the sum of the input
lengths, as a fresh Owned buffer — except that a single-element input list
is returned unchanged, preserving its variant. -/
theorem concat_into_one_spec :
    (∀ b : LanceBuffer, LanceBuffer.concat_into_one [b] = b) ∧
    (∀ buffers : List LanceBuffer,
      (LanceBuffer.concat_into_one buffers).as_ref =
        List.flatten (buffers.map LanceBuffer.as_ref) ∧
      (LanceBuffer.concat_into_one buffers).len =
        (buffers.map LanceBuffer.len).sum) ∧
    (∀ buffers : List LanceBuffer, buffers.length ≠ 1 →
      ∃ data, LanceBuffer.concat_into_one buffers = .Owned data) := by
  refine ⟨fun b => rfl, fun buffers => ?_, fun buffers hlen => ?_⟩
  · constructor
    · match buffers with
      | [] => rfl
      | [b] => simp [LanceBuffer.concat_into_one]
      | a :: b :: rest => rfl
    · have key : ∀ l : List LanceBuffer,
          (List.flatten (l.map LanceBuffer.as_ref)).length =
            (l.map LanceBuffer.len).sum := by
        intro l
        rw [List.length_flatten, List.map_map]
        rfl
      match buffers with
      | [] => rfl
      | [b] => simp [LanceBuffer.concat_into_one, LanceBuffer.len]
      | a :: b :: rest => exact key (a :: b :: rest)
  · match buffers with
    | [] => exact ⟨[], rfl⟩
    | [b] => exact absurd rfl hlen
    | a :: b :: rest => exact ⟨_, rfl⟩

/-- Claim C6 witness: concatenating three concrete owned buffers. -/
theorem concat_into_one_spec_witness :
    (LanceBuffer.concat_into_one
      [.Owned [1, 2, 3], .Owned [4, 5, 6], .Owned [7, 8, 9]]).as_ref =
      [1, 2, 3, 4, 5, 6, 7, 8, 9] := by
  rw [(concat_into_one_spec.2.1
    [.Owned [1, 2, 3], .Owned [4, 5, 6], .Owned [7, 8, 9]]).1]
  rfl

/-- Claim C8: `try_clone` fails exactly on an Owned buffer, and on a
Borrowed buffer returns an aliasing clone with the same byte content. -/
theorem try_clone_spec :
    (∀ b : LanceBuffer,
      (∃ msg, b.try_clone = .error msg) ↔ ∃ data, b = .Owned data) ∧
    (∀ data : List Nat,
      (LanceBuffer.Borrowed data).try_clone = .ok (.Borrowed data)) := by
  refine ⟨fun b => ?_, fun data => rfl⟩
  cases b with
  | Borrowed buffer => simp [LanceBuffer.try_clone]
  | Owned buffer => simp [LanceBuffer.try_clone]

/-- Claim C8 witness: `try_clone` fails on a concrete Owned buffer and
succeeds on a concrete Borrowed buffer. -/
theorem try_clone_spec_witness :
    (∃ msg, (LanceBuffer.Owned [1, 2]).try_clone = .error msg) ∧
    (LanceBuffer.Borrowed [3, 4]).try_clone = .ok (.Borrowed [3, 4]) :=
  ⟨(try_clone_spec.1 (.Owned [1, 2])).mpr ⟨[1, 2], rfl⟩,
   try_clone_spec.2 [3, 4]⟩

/-- Claim C9: buffer equality holds iff byte contents are equal, ignoring
the variant; in particular a Borrowed and an Owned buffer over the same
bytes compare equal, and the relation is reflexive, symmetric and
transitive. -/
theorem eqBuf_spec :
    (∀ a b : LanceBuffer, LanceBuffer.eqBuf a b = true ↔ a.as_ref = b.as_ref) ∧
    (∀ data : List Nat,
      LanceBuffer.eqBuf (.Borrowed data) (.Owned data) = true) ∧
    (∀ a : LanceBuffer, LanceBuffer.eqBuf a a = true) ∧
    (∀ a b : LanceBuffer, LanceBuffer.eqBuf a b = LanceBuffer.eqBuf b a) ∧
    (∀ a b c : LanceBuffer, LanceBuffer.eqBuf a b = true →
      LanceBuffer.eqBuf b c = true → LanceBuffer.eqBuf a c = true) := by
  have main : ∀ a b : LanceBuffer,
      LanceBuffer.eqBuf a b = true ↔ a.as_ref = b.as_ref := by
    intro a b
    cases a <;> cases b <;> simp [LanceBuffer.eqBuf, LanceBuffer.as_ref]
  refine ⟨main, fun data => ?_, fun a => ?_, fun a b => ?_, fun a b c hab hbc => ?_⟩
  · exact (main _ _).mpr rfl
  · exact (main _ _).mpr rfl
  · rw [Bool.eq_iff_iff, main, main]
    exact eq_comm
  · exact (main _ _).mpr ((main _ _).mp hab |>.trans ((main _ _).mp hbc))

/-- Claim C9 witness: a Borrowed and an Owned buffer over the same
concrete bytes compare equal. -/
theorem eqBuf_spec_witness :
    LanceBuffer.eqBuf (.Borrowed [1, 2, 3]) (.Owned [1, 2, 3]) = true :=
  eqBuf_spec.2.1 [1, 2, 3]

/-- Bytes of a take-of-drop slice agree with the original list at the
shifted index. -/
theorem getD_take_drop (l : List Nat) (offset length j : Nat)
    (hj : j < length) :
    ((l.drop offset).take length).getD j 0 = l.getD (offset + j) 0 := by
  rw [List.getD_eq_getElem?_getD, List.getD_eq_getElem?_getD,
    List.getElem?_take, if_pos hj, List.getElem?_drop]

/-- Claim C4: `slice_with_length` panics (modelled `none`) exactly when
the mathematical `offset + length` exceeds the buffer's length; otherwise
the result holds bytes `[offset, offset + length)` of the input, Borrowed
aliasing a Borrowed input and a fresh Owned copy of an Owned input. -/
theorem slice_with_length_spec (b : LanceBuffer) (offset length : Nat) :
    (b.slice_with_length offset length = none ↔
      b.as_ref.length < offset + length) ∧
    (∀ r, b.slice_with_length offset length = some r →
      r.as_ref.length = length ∧
      (∀ j, j < length → r.as_ref.getD j 0 = b.as_ref.getD (offset + j) 0) ∧
      ((∃ data, b = .Borrowed data) → ∃ data, r = .Borrowed data) ∧
      ((∃ data, b = .Owned data) → ∃ data, r = .Owned data)) := by
  by_cases h : offset + length ≤ b.as_ref.length
  · refine ⟨?_, fun r hr => ?_⟩
    · rw [LanceBuffer.slice_with_length.eq_def, if_pos h]
      simp
      omega
    · rw [LanceBuffer.slice_with_length.eq_def, if_pos h] at hr
      have hcontent : r.as_ref = (b.as_ref.drop offset).take length := by
        cases b with
        | Borrowed buffer =>
          cases hr
          rfl
        | Owned buffer =>
          cases hr
          rfl
      refine ⟨?_, fun j hj => ?_, fun hb => ?_, fun hb => ?_⟩
      · rw [hcontent, List.length_take, List.length_drop]
        omega
      · rw [hcontent, getD_take_drop _ _ _ _ hj]
      · obtain ⟨data, rfl⟩ := hb
        cases hr
        exact ⟨_, rfl⟩
      · obtain ⟨data, rfl⟩ := hb
        cases hr
        exact ⟨_, rfl⟩
  · refine ⟨?_, fun r hr => ?_⟩
    · rw [LanceBuffer.slice_with_length.eq_def, if_neg h]
      simp
      omega
    · rw [LanceBuffer.slice_with_length.eq_def, if_neg h] at hr
      exact absurd hr (by simp)

/-- Claim C4 witness: slicing a concrete Borrowed buffer in bounds and
checking the out-of-bounds failure at a concrete input. -/
theorem slice_with_length_spec_witness :
    (LanceBuffer.Borrowed [10, 20, 30, 40]).slice_with_length 1 2 =
      some (.Borrowed [20, 30]) ∧
    (LanceBuffer.Borrowed [20, 30]).as_ref.length = 2 :=
  ⟨by rfl,
   ((slice_with_length_spec (.Borrowed [10, 20, 30, 40]) 1 2).2
     (.Borrowed [20, 30]) (by rfl)).1⟩

/-- Claim C2: the six documented bit-slice results on the two-byte buffer
`[0x0F, 0x0B]`; every returned buffer is Borrowed; and a byte-aligned
offset degrades to the byte slice at `offset / 8` of `ceil(length / 8)`
bytes. -/
theorem bit_slice_le_with_length_spec :
    ((LanceBuffer.Owned [0x0F, 0x0B]).bit_slice_le_with_length 0 4 =
        some (.Borrowed [0x0F]) ∧
      (LanceBuffer.Owned [0x0F, 0x0B]).bit_slice_le_with_length 4 4 =
        some (.Borrowed [0x00]) ∧
      (LanceBuffer.Owned [0x0F, 0x0B]).bit_slice_le_with_length 3 8 =
        some (.Borrowed [0x61]) ∧
      (LanceBuffer.Owned [0x0F, 0x0B]).bit_slice_le_with_length 0 8 =
        some (.Borrowed [0x0F]) ∧
      (LanceBuffer.Owned [0x0F, 0x0B]).bit_slice_le_with_length 4 8 =
        some (.Borrowed [0xB0]) ∧
      (LanceBuffer.Owned [0x0F, 0x0B]).bit_slice_le_with_length 4 12 =
        some (.Borrowed [0xB0, 0x00])) ∧
    (∀ (b : LanceBuffer) (off len : Nat) (r : LanceBuffer),
      b.bit_slice_le_with_length off len = some r →
      ∃ bytes, r = .Borrowed bytes) ∧
    (∀ (b : LanceBuffer) (off len : Nat), off % 8 = 0 →
      off + len ≤ 8 * b.as_ref.length →
      b.bit_slice_le_with_length off len =
        some (.Borrowed ((b.as_ref.drop (off / 8)).take ((len + 7) / 8)))) := by
  refine ⟨⟨?_, ?_, ?_, ?_, ?_, ?_⟩, fun b off len r hr => ?_, fun b off len h8 hle => ?_⟩
  · decide
  · decide
  · decide
  · decide
  · decide
  · decide
  · rw [LanceBuffer.bit_slice_le_with_length] at hr
    cases hb : arrow_bit_slice b.as_ref off len with
    | none => rw [hb] at hr; cases hr
    | some bytes =>
      rw [hb] at hr
      cases hr
      exact ⟨bytes, rfl⟩
  · rw [LanceBuffer.bit_slice_le_with_length, arrow_bit_slice,
      if_pos hle, if_pos h8]
    rfl

/-- Claim C2 witness: a byte-aligned slice on a concrete buffer, with
hypotheses discharged concretely. -/
theorem bit_slice_le_with_length_spec_witness :
    (LanceBuffer.Owned [0xAB, 0xCD]).bit_slice_le_with_length 8 8 =
      some (.Borrowed [0xCD]) := by
  have h := bit_slice_le_with_length_spec.2.2
    (.Owned [0xAB, 0xCD]) 8 8 (by decide) (by decide)
  rw [h]
  rfl

/-- A `w`-byte little-endian rendering has exactly `w` bytes. -/
theorem toLEBytes_length (w : Nat) : ∀ x, (toLEBytes w x).length = w := by
  induction w with
  | zero => intro x; rfl
  | succ w ih =>
    intro x
    simp [toLEBytes, ih]

/-- Decoding inverts encoding for values below `256 ^ w`. -/
theorem fromLEBytes_toLEBytes (w : Nat) :
    ∀ x, x < 256 ^ w → fromLEBytes (toLEBytes w x) = x := by
  induction w with
  | zero =>
    intro x hx
    simp [pow_zero] at hx
    simp [toLEBytes, fromLEBytes, hx]
  | succ w ih =>
    intro x hx
    have hdiv : x / 256 < 256 ^ w := by
      rw [Nat.div_lt_iff_lt_mul (by norm_num)]
      calc x < 256 ^ (w + 1) := hx
        _ = 256 ^ w * 256 := by rw [pow_succ]
    rw [toLEBytes, fromLEBytes, ih (x / 256) hdiv]
    omega

/-- Chunk-decoding a concatenation of `w`-byte renderings recovers the
original values. -/
theorem chunkValues_flatten (w : Nat) (hw : 0 < w) :
    ∀ v : List Nat, (∀ x ∈ v, x < 256 ^ w) →
      chunkValues w (List.flatten (v.map (toLEBytes w))) = v := by
  intro v
  induction v with
  | nil =>
    intro hv
    rw [List.map_nil, List.flatten_nil, chunkValues]
    simp
  | cons x v ih =>
    intro hv
    have hlen : (toLEBytes w x).length = w := toLEBytes_length w x
    rw [List.map_cons, List.flatten_cons, chunkValues]
    have hne : toLEBytes w x ++ List.flatten (v.map (toLEBytes w)) ≠ [] := by
      intro hc
      have := congrArg List.length hc
      simp [hlen] at this
      omega
    rw [dif_pos ⟨hw, hne⟩, List.take_left' hlen, List.drop_left' hlen,
      fromLEBytes_toLEBytes w x (hv x (List.mem_cons_self x v)),
      ih (fun y hy => hv y (List.mem_cons_of_mem x hy))]

/-- Claim C5: the typed round trip — `borrow_to_typed_slice` applied to
`reinterpret_vec` of a value sequence yields the original values, and
`reinterpret_vec` always produces a Borrowed buffer. -/
theorem reinterpret_vec_roundTrip (w : Nat) (v : List Nat) (hw : 0 < w)
    (hv : ∀ x ∈ v, x < 256 ^ w) :
    LanceBuffer.borrow_to_typed_slice w (LanceBuffer.reinterpret_vec w v) =
      some v ∧
    ∃ bytes, LanceBuffer.reinterpret_vec w v = .Borrowed bytes := by
  refine ⟨?_, ⟨_, rfl⟩⟩
  have hflat : (List.flatten (v.map (toLEBytes w))).length = v.length * w := by
    rw [List.length_flatten, List.map_map]
    have : (List.map (List.length ∘ toLEBytes w) v) =
        List.replicate v.length w := by
      rw [show List.length ∘ toLEBytes w = fun _ => w from
        funext (fun x => toLEBytes_length w x)]
      exact List.map_const' v w
    rw [this]
    simp [List.sum_replicate, Nat.smul_one_eq_cast]
  rw [LanceBuffer.borrow_to_typed_slice]
  have har : (LanceBuffer.reinterpret_vec w v).as_ref =
      List.flatten (v.map (toLEBytes w)) := rfl
  rw [har, if_pos (by rw [hflat]; exact Nat.mul_mod_left v.length w)]
  exact congrArg some (chunkValues_flatten w hw v hv)

/-- Claim C5 witness: round-tripping three 4-byte values. -/
theorem reinterpret_vec_roundTrip_witness :
    LanceBuffer.borrow_to_typed_slice 4
      (LanceBuffer.reinterpret_vec 4 [1, 2, 3]) = some [1, 2, 3] :=
  (reinterpret_vec_roundTrip 4 [1, 2, 3] (by decide) (by decide)).1

/-- One zip row succeeds and matches the spec's row layout when every
buffer extends past this row. -/
theorem zipOneRow_eq_spec (bufs : List (List Nat × Nat)) (r : Nat)
    (h : ∀ p ∈ bufs, (r + 1) * p.2 ≤ p.1.length) :
    zipOneRow bufs r = some (zipRowSpec bufs r) := by
  induction bufs with
  | nil => rfl
  | cons p rest ih =>
    obtain ⟨b, w⟩ := p
    have hb : (r + 1) * w ≤ b.length := h (b, w) (List.mem_cons_self _ _)
    have hread : readBytes b (r * w) w = some ((b.drop (r * w)).take w) := by
      rw [readBytes, if_pos (by rw [Nat.succ_mul] at hb; exact hb)]
    rw [zipOneRow, hread, ih (fun q hq => h q (List.mem_cons_of_mem _ hq))]
    rfl

/-- The zip row loop from row `r` for `cnt` rows succeeds and produces the
rows `r .. r + cnt - 1` in order when every buffer covers them. -/
theorem zipRowsFrom_eq_spec (bufs : List (List Nat × Nat)) :
    ∀ (cnt r : Nat), (∀ p ∈ bufs, (r + cnt) * p.2 ≤ p.1.length) →
      zipRowsFrom bufs r cnt =
        some (List.flatten ((List.range' r cnt).map (zipRowSpec bufs))) := by
  intro cnt
  induction cnt with
  | zero => intro r _; rfl
  | succ cnt ih =>
    intro r h
    have h1 : ∀ p ∈ bufs, (r + 1) * p.2 ≤ p.1.length := fun p hp =>
      le_trans (Nat.mul_le_mul_right _ (by omega)) (h p hp)
    have h2 : ∀ p ∈ bufs, (r + 1 + cnt) * p.2 ≤ p.1.length := fun p hp =>
      le_trans (Nat.mul_le_mul_right _ (by omega)) (h p hp)
    rw [zipRowsFrom, zipOneRow_eq_spec bufs r h1, ih (r + 1) h2,
      List.range'_succ, List.map_cons, List.flatten_cons]

/-- Unfolding one buffer of a spec row. -/
theorem zipRowSpec_cons (b : List Nat) (w r : Nat)
    (rest : List (List Nat × Nat)) :
    zipRowSpec ((b, w) :: rest) r =
      (b.drop (r * w)).take w ++ zipRowSpec rest r := by
  simp [zipRowSpec]

/-- Each spec row has length `sum` of the per-value byte widths when every
buffer covers the row. -/
theorem zipRowSpec_length (bufs : List (List Nat × Nat)) (r : Nat)
    (h : ∀ p ∈ bufs, (r + 1) * p.2 ≤ p.1.length) :
    (zipRowSpec bufs r).length = (bufs.map (fun p => p.2)).sum := by
  induction bufs with
  | nil => rfl
  | cons p rest ih =>
    obtain ⟨b, w⟩ := p
    have hb : (r + 1) * w ≤ b.length := h (b, w) (List.mem_cons_self _ _)
    have hrest := ih (fun q hq => h q (List.mem_cons_of_mem _ hq))
    rw [zipRowSpec_cons, List.length_append, List.length_take,
      List.length_drop, hrest, List.map_cons, List.sum_cons]
    have hs : (r + 1) * w = r * w + w := Nat.succ_mul r w
    omega

/-- Total spec-zip length: `n` rows of the summed byte width. -/
theorem zipSpec_length (bufs : List (List Nat × Nat)) (n : Nat)
    (h : ∀ p ∈ bufs, n * p.2 ≤ p.1.length) :
    (zipSpec bufs n).length = n * (bufs.map (fun p => p.2)).sum := by
  rw [zipSpec, List.length_flatten, List.map_map]
  have hrow : ∀ r ∈ List.range n,
      (List.length ∘ zipRowSpec bufs) r = (bufs.map (fun p => p.2)).sum := by
    intro r hr
    have hrn : r + 1 ≤ n := List.mem_range.mp hr
    exact zipRowSpec_length bufs r (fun p hp =>
      le_trans (Nat.mul_le_mul_right _ hrn) (h p hp))
  rw [List.map_congr_left hrow, List.map_const', List.length_range,
    List.sum_replicate, smul_eq_mul]

/-- Width validation succeeds on all-multiple-of-8 widths, yielding the
per-value byte widths. -/
theorem computeBytesPerValue_ok (l : List Nat) (h : ∀ b ∈ l, b % 8 = 0) :
    computeBytesPerValue l = .ok (l.map (fun b => b / 8)) := by
  induction l with
  | nil => rfl
  | cons b rest ih =>
    rw [computeBytesPerValue, if_pos (h b (List.mem_cons_self _ _)),
      ih (fun q hq => h q (List.mem_cons_of_mem _ hq))]
    rfl

/-- `zip_into_one` refines the spec layout whenever every width is a whole
number of bytes and every buffer covers all `n` rows. -/
theorem zip_into_one_ok_of_bounds (buffers : List (LanceBuffer × Nat))
    (n : Nat) (hbits : ∀ p ∈ buffers, p.2 % 8 = 0)
    (hlen : ∀ p ∈ buffers, n * (p.2 / 8) ≤ p.1.as_ref.length) :
    LanceBuffer.zip_into_one buffers n =
      .ok (.Owned (zipSpec (buffers.map (fun p => (p.1.as_ref, p.2 / 8))) n)) := by
  have hzip : (buffers.map (fun p => p.1.as_ref)).zip
      ((buffers.map (fun p => p.2)).map (fun b => b / 8)) =
      buffers.map (fun p => (p.1.as_ref, p.2 / 8)) := by
    rw [List.map_map]
    exact List.zip_map' _ _ _
  have hbound : ∀ q ∈ buffers.map (fun p => (p.1.as_ref, p.2 / 8)),
      (0 + n) * q.2 ≤ q.1.length := by
    intro q hq
    obtain ⟨p, hp, rfl⟩ := List.mem_map.mp hq
    rw [Nat.zero_add]
    exact hlen p hp
  rw [LanceBuffer.zip_into_one,
    computeBytesPerValue_ok (buffers.map (fun p => p.2))
      (by intro b hb; obtain ⟨p, hp, rfl⟩ := List.mem_map.mp hb; exact hbits p hp)]
  simp only [hzip, zipRowsFrom_eq_spec _ n 0 hbound, zipSpec,
    List.range_eq_range']

/-- Claim C1: under whole-byte widths and sufficiently long buffers,
`zip_into_one` returns Ok of a fresh Owned buffer laid out row-major —
row `r` holds, in input order, bytes `[r*w_i, (r+1)*w_i)` of buffer `i` —
with total length `valueCount * sum(w_i)`. -/
theorem zip_into_one_rowMajorLayout (buffers : List (LanceBuffer × Nat))
    (n : Nat) (hbits : ∀ p ∈ buffers, p.2 % 8 = 0)
    (hlen : ∀ p ∈ buffers, n * (p.2 / 8) ≤ p.1.as_ref.length) :
    LanceBuffer.zip_into_one buffers n =
      .ok (.Owned (zipSpec (buffers.map (fun p => (p.1.as_ref, p.2 / 8))) n)) ∧
    (zipSpec (buffers.map (fun p => (p.1.as_ref, p.2 / 8))) n).length =
      n * (buffers.map (fun p => p.2 / 8)).sum := by
  refine ⟨zip_into_one_ok_of_bounds buffers n hbits hlen, ?_⟩
  have hbound : ∀ q ∈ buffers.map (fun p => (p.1.as_ref, p.2 / 8)),
      n * q.2 ≤ q.1.length := by
    intro q hq
    obtain ⟨p, hp, rfl⟩ := List.mem_map.mp hq
    exact hlen p hp
  rw [zipSpec_length _ n hbound, List.map_map]
  rfl

/-- Claim C1 witness: zipping the 1-, 2- and 4-byte columns `[1,2,3]` for
3 rows yields exactly the documented 21 bytes. -/
theorem zip_into_one_rowMajorLayout_witness :
    LanceBuffer.zip_into_one
      [(.Owned [1, 2, 3], 8), (.Owned [1, 0, 2, 0, 3, 0], 16),
        (.Owned [1, 0, 0, 0, 2, 0, 0, 0, 3, 0, 0, 0], 32)] 3 =
      ZipResult.ok (.Owned
        [1, 1, 0, 1, 0, 0, 0, 2, 2, 0, 2, 0, 0, 0, 3, 3, 0, 3, 0, 0, 0]) := by
  have h := (zip_into_one_rowMajorLayout
    [(.Owned [1, 2, 3], 8), (.Owned [1, 0, 2, 0, 3, 0], 16),
      (.Owned [1, 0, 0, 0, 2, 0, 0, 0, 3, 0, 0, 0], 32)] 3
    (by decide) (by decide)).1
  rw [h]
  rfl

/-- Claim C3 counterexample: on an empty 8-bit column zipped for one row,
`zip_into_one` reads index 0 of a length-0 buffer — the unchecked pointer
walk runs past the buffer's extent (the `oob` outcome), refuting the
claim's "no precondition relating the buffers' lengths to valueCount". -/
theorem zip_into_one_oob_counterexample :
    LanceBuffer.zip_into_one [(.Owned [], 8)] 1 = ZipResult.oob := by
  rfl

/-- Claim C3 (amended): when every `bitsPerValue` is a multiple of 8 and
every buffer holds at least `valueCount * bitsPerValue/8` bytes, every
byte read lies below its buffer's length — the pointer walk never runs
past any input's extent. -/
theorem zip_into_one_inBounds (buffers : List (LanceBuffer × Nat))
    (n : Nat) (hbits : ∀ p ∈ buffers, p.2 % 8 = 0)
    (hlen : ∀ p ∈ buffers, n * (p.2 / 8) ≤ p.1.as_ref.length) :
    LanceBuffer.zip_into_one buffers n ≠ ZipResult.oob := by
  rw [zip_into_one_ok_of_bounds buffers n hbits hlen]
  intro hc
  cases hc

/-- Claim C3 witness: a concrete in-bounds zip is not an out-of-bounds
read. -/
theorem zip_into_one_inBounds_witness :
    LanceBuffer.zip_into_one [(.Owned [5, 6], 8)] 2 ≠ ZipResult.oob :=
  zip_into_one_inBounds [(.Owned [5, 6], 8)] 2 (by decide) (by decide)

/-- A width-validation error names a member width that is not a multiple
of 8. -/
theorem computeBytesPerValue_error_mem (l : List Nat) :
    ∀ e, computeBytesPerValue l = .error e → e ∈ l ∧ e % 8 ≠ 0 := by
  induction l with
  | nil => intro e he; cases he
  | cons b rest ih =>
    intro e he
    rw [computeBytesPerValue] at he
    by_cases hb : b % 8 = 0
    · rw [if_pos hb] at he
      cases hr : computeBytesPerValue rest with
      | ok ws => rw [hr] at he; cases he
      | error e2 =>
        rw [hr] at he
        cases he
        obtain ⟨hm, hmod⟩ := ih e hr
        exact ⟨List.mem_cons_of_mem _ hm, hmod⟩
    · rw [if_neg hb] at he
      cases he
      exact ⟨List.mem_cons_self _ _, hb⟩

/-- A member width that is not a multiple of 8 forces a width-validation
error. -/
theorem computeBytesPerValue_error_of_mem (l : List Nat) :
    (∃ b ∈ l, b % 8 ≠ 0) → ∃ e, computeBytesPerValue l = .error e := by
  induction l with
  | nil => intro h; obtain ⟨b, hb, _⟩ := h; cases hb
  | cons b rest ih =>
    intro h
    by_cases hb : b % 8 = 0
    · have hrest : ∃ x ∈ rest, x % 8 ≠ 0 := by
        obtain ⟨x, hx, hxm⟩ := h
        cases List.mem_cons.mp hx with
        | inl heq => exact absurd (heq ▸ hb) hxm
        | inr hmem => exact ⟨x, hmem, hxm⟩
      obtain ⟨e, he⟩ := ih hrest
      refine ⟨e, ?_⟩
      rw [computeBytesPerValue, if_pos hb, he]
    · exact ⟨b, by rw [computeBytesPerValue, if_neg hb]⟩

/-- `zip_into_one` yields `err bits` exactly when width validation yields
`error bits`. -/
theorem zip_into_one_err_iff (buffers : List (LanceBuffer × Nat))
    (n bits : Nat) :
    LanceBuffer.zip_into_one buffers n = .err bits ↔
      computeBytesPerValue (buffers.map (fun p => p.2)) = .error bits := by
  rw [LanceBuffer.zip_into_one]
  cases h : computeBytesPerValue (buffers.map (fun p => p.2)) with
  | ok ws =>
    simp only
    cases hz : zipRowsFrom ((buffers.map (fun p => p.1.as_ref)).zip ws) 0 n with
    | some zipped => simp
    | none => simp
  | error e => simp

/-- Claim C7: `zip_into_one` returns the recoverable width error iff some
`bitsPerValue` is not a multiple of 8; the error names an offending input
width, and no output buffer is returned in that case. -/
theorem zip_into_one_widthError (buffers : List (LanceBuffer × Nat))
    (n : Nat) :
    ((∃ p ∈ buffers, p.2 % 8 ≠ 0) ↔
      ∃ bits, LanceBuffer.zip_into_one buffers n = .err bits) ∧
    (∀ bits, LanceBuffer.zip_into_one buffers n = .err bits →
      bits % 8 ≠ 0 ∧ (∃ p ∈ buffers, p.2 = bits) ∧
      ∀ buf, LanceBuffer.zip_into_one buffers n ≠ .ok buf) := by
  constructor
  · constructor
    · intro h
      obtain ⟨p, hp, hm⟩ := h
      obtain ⟨e, he⟩ := computeBytesPerValue_error_of_mem
        (buffers.map (fun p => p.2)) ⟨p.2, List.mem_map_of_mem _ hp, hm⟩
      exact ⟨e, (zip_into_one_err_iff buffers n e).mpr he⟩
    · intro h
      obtain ⟨bits, hb⟩ := h
      have he := (zip_into_one_err_iff buffers n bits).mp hb
      obtain ⟨hm, hmod⟩ := computeBytesPerValue_error_mem _ bits he
      obtain ⟨p, hp, hpe⟩ := List.mem_map.mp hm
      exact ⟨p, hp, hpe ▸ hmod⟩
  · intro bits hb
    have he := (zip_into_one_err_iff buffers n bits).mp hb
    obtain ⟨hm, hmod⟩ := computeBytesPerValue_error_mem _ bits he
    obtain ⟨p, hp, hpe⟩ := List.mem_map.mp hm
    refine ⟨hmod, ⟨p, hp, hpe⟩, fun buf hc => ?_⟩
    rw [hb] at hc
    cases hc

/-- Claim C7 witness: a 12-bit column makes `zip_into_one` fail with the
width error naming 12. -/
theorem zip_into_one_widthError_witness :
    ∃ bits, LanceBuffer.zip_into_one [(.Owned [1, 2], 12)] 1 =
      ZipResult.err bits :=
  (zip_into_one_widthError [(.Owned [1, 2], 12)] 1).1.mp
    ⟨(.Owned [1, 2], 12), List.mem_cons_self _ _, by decide⟩

/-- The source's character loop equals the indexed spec rendering: a space
lands before each absolute index (starting at `i`) that is a positive
multiple of `chars_per_word`. -/
theorem spaceLoop_eq_spec (cpw : Nat) (hcpw : 0 < cpw) :
    ∀ (cs : List Char) (i : Nat),
      spaceLoop cpw i cs =
        List.flatten ((List.range cs.length).map (fun j =>
          (if 0 < i + j ∧ cpw ∣ (i + j) then [' '] else []) ++
            [cs.getD j ' '])) := by
  intro cs
  induction cs with
  | nil => intro i; rfl
  | cons c rest ih =>
    intro i
    rw [spaceLoop, ih (i + 1), List.length_cons, List.range_succ_eq_map,
      List.map_cons, List.flatten_cons, List.map_map]
    have hhead : (if i % cpw = 0 ∧ i ≠ 0 then [' ', c] else [c]) =
        (if 0 < i + 0 ∧ cpw ∣ (i + 0) then [' '] else []) ++
          [(c :: rest).getD 0 ' '] := by
      have hiff : (i % cpw = 0 ∧ i ≠ 0) ↔ (0 < i + 0 ∧ cpw ∣ (i + 0)) := by
        rw [Nat.add_zero, Nat.dvd_iff_mod_eq_zero]
        omega
      by_cases hc : i % cpw = 0 ∧ i ≠ 0
      · rw [if_pos hc, if_pos (hiff.mp hc)]
        rfl
      · rw [if_neg hc, if_neg (fun hc2 => hc (hiff.mpr hc2))]
        rfl
    rw [hhead]
    congr 1
    apply congrArg List.flatten
    apply List.map_congr_left
    intro j hj
    have hadd : i + 1 + j = i + Nat.succ j := by omega
    show (if 0 < i + 1 + j ∧ cpw ∣ (i + 1 + j) then [' '] else []) ++
        [rest.getD j ' '] =
      (if 0 < i + Nat.succ j ∧ cpw ∣ (i + Nat.succ j) then [' '] else []) ++
        [(c :: rest).getD (Nat.succ j) ' ']
    rw [hadd]
    rfl

/-- Claim C10: `as_spaced_hex` panics by zero division (modelled `none`)
whenever `bytes_per_word = 0`, for every buffer including the empty one;
for `bytes_per_word ≥ 1` it returns the uppercase hex rendering with one
space before every character index that is a positive multiple of
`2 * bytes_per_word`. -/
theorem as_spaced_hex_spec :
    (∀ b : LanceBuffer, b.as_spaced_hex 0 = none) ∧
    (∀ (b : LanceBuffer) (w : Nat), 1 ≤ w →
      b.as_spaced_hex w = some (spacedHexSpec (2 * w) b.as_hex)) := by
  refine ⟨fun b => rfl, fun b w hw => ?_⟩
  rw [LanceBuffer.as_spaced_hex, if_neg (by omega),
    spaceLoop_eq_spec (w * 2) (by omega) b.as_hex 0, spacedHexSpec]
  congr 1
  congr 1
  apply List.map_congr_left
  intro j hj
  have h0 : 0 + j = j := Nat.zero_add j
  rw [h0, Nat.mul_comm w 2]

/-- Claim C10 witness: bytes `[1, 2, 15, 20]` at two bytes per word render
as `0102 0F14`, and the zero-word case fails, concretely. -/
theorem as_spaced_hex_spec_witness :
    (LanceBuffer.Owned [1, 2, 15, 20]).as_spaced_hex 2 =
      some ['0', '1', '0', '2', ' ', '0', 'F', '1', '4'] ∧
    (LanceBuffer.Owned []).as_spaced_hex 0 = none := by
  constructor
  · rw [as_spaced_hex_spec.2 (.Owned [1, 2, 15, 20]) 2 (by decide)]
    rfl
  · exact as_spaced_hex_spec.1 (.Owned [])

end LanceSpec
